import Mathlib

/-
Verification of the getinspire repository: a shallow embedding of the
key classifier, the fetch outcome logic, the reference extractors, the
bibliography-key extractor, the BibTeX record-key parser, and the
position-based replacement engine, together with theorems settling the
frozen claims about the natural-language specification.

Documents are embedded as `List Char` (the Python code works on `str`).
Regular-expression matching in the source is embedded by direct,
deterministic scanners: every character class in the source patterns
excludes its follow-up delimiter, so greedy matching never backtracks and
each `re` pipeline denotes a total function, which is spelled out here.
-/

set_option maxRecDepth 10000

/-! ## ASCII character classes used by the source regexes -/

/-- Apostrophe character (appears in the label character classes). -/
def apos : Char := Char.ofNat 39

/-- Double-quote character (stripped by `Record.getBibTeX`). -/
def dquote : Char := Char.ofNat 34

def isLowerAZ (c : Char) : Bool := 'a' ≤ c && c ≤ 'z'

def isUpperAZ (c : Char) : Bool := 'A' ≤ c && c ≤ 'Z'

def isDigit09 (c : Char) : Bool := '0' ≤ c && c ≤ '9'

/-- Python `\s`: space, tab, newline, carriage return, vertical tab, form feed. -/
def isPySpace (c : Char) : Bool :=
  c == ' ' || c == '\t' || c == '\n' || c == '\r' || c == Char.ofNat 11 || c == Char.ofNat 12

/-! ## Key classifier (src/getinspire/inspire.py, class Key)

`INSPIRE_REGEX = ^[a-z0-9'.-]+:[0-9a-z]+$` with `re.IGNORECASE`,
`ARXIV_REGEX = ^(?:arxiv:?)?(([a-z.-]+/\d{7})|(\d{4}\.\d{4,5}))$` with
`re.IGNORECASE`. -/

/-- Character class `[a-z0-9'.-]` under IGNORECASE (ASCII reading). -/
def isInspireLabelChar (c : Char) : Bool :=
  isLowerAZ c || isUpperAZ c || isDigit09 c || c == apos || c == '.' || c == '-'

/-- Character class `[0-9a-z]` under IGNORECASE (ASCII reading). -/
def isInspireSuffixChar (c : Char) : Bool :=
  isDigit09 c || isLowerAZ c || isUpperAZ c

/-- Character class `[a-z.-]` under IGNORECASE (ASCII reading). -/
def isSlashLabelChar (c : Char) : Bool :=
  isLowerAZ c || isUpperAZ c || c == '.' || c == '-'

/-- Anchored match of `^[a-z0-9'.-]+:[0-9a-z]+$` (IGNORECASE).  The label
class excludes `:`, so the greedy `+` runs exactly to the first colon. -/
def inspireMatch (s : List Char) : Bool :=
  match s.span isInspireLabelChar with
  | (a, c :: b) => c == ':' && a != [] && b != [] && b.all isInspireSuffixChar
  | (_, []) => false

/-- Anchored match of `[a-z.-]+/\d{7}$` (IGNORECASE).  The label class
excludes `/`, so the greedy `+` runs exactly to the first slash. -/
def slashForm (s : List Char) : Bool :=
  match s.span isSlashLabelChar with
  | (a, c :: d) => c == '/' && a != [] && d.length == 7 && d.all isDigit09
  | (_, []) => false

/-- Anchored match of `\d{4}\.\d{4,5}$`. -/
def dotForm : List Char → Bool
  | a :: b :: c :: d :: e :: rest =>
    isDigit09 a && isDigit09 b && isDigit09 c && isDigit09 d && (e == '.') &&
      (rest.length == 4 || rest.length == 5) && rest.all isDigit09
  | _ => false

/-- The parenthesised group-1 alternatives of `ARXIV_REGEX`. -/
def arxivCore (s : List Char) : Bool :=
  slashForm s || dotForm s

/-- Case-insensitive comparison of `s` with a lowercase pattern `t`. -/
def lowerEq (s t : List Char) : Bool :=
  s.map Char.toLower == t

/-- Full `ARXIV_REGEX` match, returning group 1 (the key stripped of the
optional `arxiv:?` scheme tag).  The optional group is tried greedily:
`arxiv:`, then `arxiv`, then the empty prefix, exactly as the regex
engine backtracks (the group-1 alternatives can never start with `:`,
and `[a-z.-]+` can never cross a `:`, so this if-chain is exhaustive). -/
def arxivMatch (s : List Char) : Option (List Char) :=
  if lowerEq (s.take 6) (("arxiv:").toList) && arxivCore (s.drop 6) then some (s.drop 6)
  else if lowerEq (s.take 5) (("arxiv").toList) && arxivCore (s.drop 5) then some (s.drop 5)
  else if arxivCore s then some s
  else none

/-- `Key.Type` from `inspire.py`. -/
inductive KeyType where
  | UNKNOWN
  | INSPIRE
  | ARXIV
deriving DecidableEq

/-- `Key.format`: the canonical (INSPIRE) pattern is checked first, then
the alternate (ARXIV) pattern, else the key is unrecognized. -/
def Key.format (key : List Char) : List Char × KeyType :=
  if inspireMatch key then (key, KeyType.INSPIRE)
  else
    match arxivMatch key with
    | some g => (g, KeyType.ARXIV)
    | none => (key, KeyType.UNKNOWN)

/-! ## Fetch outcomes (src/getinspire/inspire.py, Inspire.fetch)

The network transport and the HTML `<pre>` parser are external
collaborators; `results` stands for `parser.pre_list`, the list of
`<pre>` blocks of the response page.  The key-type dispatch happens
before any network access, exactly as in the source. -/

/-- The three exception classes raised by `Inspire.fetch`:
`SkipUnknownQuery`, `RecordNotFound`, `MultipleRecordsFound`. -/
inductive FetchError where
  | unsupported
  | notFound
  | ambiguous
deriving DecidableEq

/-- Python `str.strip()`: remove leading and trailing whitespace. -/
def pstrip (s : List Char) : List Char :=
  ((s.dropWhile isPySpace).reverse.dropWhile isPySpace).reverse

/-- `Inspire.fetch key`, given the service's result list: raise
`SkipUnknownQuery` for an unrecognized key before any fetch; otherwise
`RecordNotFound` on zero results, `MultipleRecordsFound` on more than
one, and the single result stripped of surrounding whitespace otherwise. -/
def Inspire.fetch (key : List Char) (results : List (List Char)) :
    Except FetchError (List Char) :=
  match (Key.format key).2 with
  | KeyType.UNKNOWN => Except.error FetchError.unsupported
  | _ =>
    match results with
    | [] => Except.error FetchError.notFound
    | [r] => Except.ok (pstrip r)
    | _ :: _ :: _ => Except.error FetchError.ambiguous

/-! ## Legacy classifier (src/getinspire/getinspire.py, checkfind)

`checkfind` uses unanchored `re.search` against
`[0-9]{4}\.[0-9]{4}`, `[a-z\-\/]*[0-9]{7}` and
`texkeyregex = [a-zA-Z'.\-]*:[0-9a-z]*`.  The Python function returns a
one-entry dict `{category: s}`; it is embedded as the category alone. -/

/-- `[0-9]{4}\.[0-9]{4}` matches at the head of `t`. -/
def dottedAt : List Char → Bool
  | a :: b :: c :: d :: e :: f :: g :: h :: i :: _ =>
    isDigit09 a && isDigit09 b && isDigit09 c && isDigit09 d && (e == '.') &&
      isDigit09 f && isDigit09 g && isDigit09 h && isDigit09 i
  | _ => false

/-- `re.search(r'[0-9]{4}\.[0-9]{4}', s)`: the pattern matches at some
position. -/
def hasDotted : List Char → Bool
  | [] => false
  | c :: rest => dottedAt (c :: rest) || hasDotted rest

/-- `[0-9]{7}` matches at the head of `t`. -/
def sevenAt : List Char → Bool
  | a :: b :: c :: d :: e :: f :: g :: _ =>
    isDigit09 a && isDigit09 b && isDigit09 c && isDigit09 d &&
      isDigit09 e && isDigit09 f && isDigit09 g
  | _ => false

/-- `re.search(r'[a-z\-\/]*[0-9]{7}', s)`: since the leading class is
starred, a match exists exactly when seven consecutive digits occur. -/
def hasSeven : List Char → Bool
  | [] => false
  | c :: rest => sevenAt (c :: rest) || hasSeven rest

/-- Character class `[a-zA-Z'.\-]` of `texkeyregex`. -/
def isTexLabelChar (c : Char) : Bool :=
  isLowerAZ c || isUpperAZ c || c == apos || c == '.' || c == '-'

/-- `texkeyregex = [a-zA-Z'.\-]*:[0-9a-z]*` matches at the head of `t`:
the starred label class excludes `:`, so the greedy star runs to the
first non-label character, which must be a colon; the starred suffix
then always matches (possibly empty). -/
def texkeyAt (t : List Char) : Bool :=
  match t.span isTexLabelChar with
  | (_, c :: _) => c == ':'
  | _ => false

/-- `re.search(texkeyregex, s)`. -/
def texkeySearch : List Char → Bool
  | [] => false
  | c :: rest => texkeyAt (c :: rest) || texkeySearch rest

/-- The three categories `checkfind` can file a string under. -/
inductive FindCat where
  | eprint
  | texkey
  | other
deriving DecidableEq

/-- `checkfind` from getinspire.py (lines 137-146). -/
def checkfind (s : List Char) : FindCat :=
  if hasDotted s || hasSeven s then FindCat.eprint
  else if texkeySearch s then FindCat.texkey
  else FindCat.other

/-! ## Splitting on a character (Python `str.split`) -/

/-- `s.split(sep)` for a one-character separator, Python semantics:
`"".split` gives `[""]`, a trailing separator gives a trailing `""`. -/
def splitOnChar (sep : Char) : List Char → List (List Char)
  | [] => [[]]
  | c :: rest =>
    match splitOnChar sep rest with
    | [] => if c == sep then [[], []] else [[c]]
    | h :: t => if c == sep then [] :: h :: t else (c :: h) :: t

theorem splitOnChar_ne_nil (sep : Char) (s : List Char) : splitOnChar sep s ≠ [] := by
  cases s with
  | nil => simp [splitOnChar]
  | cons c rest =>
    simp only [splitOnChar]
    cases splitOnChar sep rest with
    | nil => by_cases hc : (c == sep) = true <;> simp [hc]
    | cons h t => by_cases hc : (c == sep) = true <;> simp [hc]

/-! ## Reference extractor (src/getinspire/getinspire.py, Cite.ExtractTexkeys)

The pipeline is
`re.sub(r'\\cite{(E)}', '\n:::\1:::\n', s).split('\n')`, then per piece
`re.search(':::(.*):::')`, `re.sub(':::','')`, `.split(',')`, where
`E = eptkregex = [a-zA-Z:0-9,\/\-._\']*`. -/

/-- Character class `eptkregex = [a-zA-Z:0-9,\/\-._\']`. -/
def isCiteKeyChar (c : Char) : Bool :=
  isLowerAZ c || isUpperAZ c || isDigit09 c || c == ':' || c == ',' ||
    c == '/' || c == '-' || c == '.' || c == '_' || c == apos

/-- The replacement text `\n:::body:::\n`. -/
def citeMarker (body : List Char) : List Char :=
  '\n' :: ':' :: ':' :: ':' :: (body ++ (':' :: ':' :: ':' :: '\n' :: []))

/-- One fuel unit consumes at least one input character, so
`citeSub` passes `s.length` as fuel and the `0` case is dead code.
The scanner mirrors `re.sub(r'\\cite{(E)}', '\n:::\1:::\n', s)`: at a
position starting with `\cite` and an opening brace, the starred class
(which excludes the closing brace) is consumed greedily; the match
succeeds exactly when the next character closes the brace. -/
def citeSubF : Nat → List Char → List Char
  | 0, s => s
  | _ + 1, [] => []
  | fuel + 1, '\\' :: 'c' :: 'i' :: 't' :: 'e' :: '{' :: rest =>
    match rest.span isCiteKeyChar with
    | (body, '}' :: rem) => citeMarker body ++ citeSubF fuel rem
    | _ => '\\' :: citeSubF fuel ('c' :: 'i' :: 't' :: 'e' :: '{' :: rest)
  | fuel + 1, c :: rest => c :: citeSubF fuel rest

def citeSub (s : List Char) : List Char := citeSubF s.length s

/-- `:::` occurs at the head of `t`. -/
def tripleAt : List Char → Bool
  | ':' :: ':' :: ':' :: _ => true
  | _ => false

/-- Index of the first occurrence of `:::`. -/
def firstTripleIdx : List Char → Option Nat
  | [] => none
  | c :: rest =>
    if tripleAt (c :: rest) then some 0 else (firstTripleIdx rest).map (· + 1)

/-- Index of the last occurrence of `:::`. -/
def lastTripleIdx : List Char → Option Nat
  | [] => none
  | c :: rest =>
    match lastTripleIdx rest with
    | some j => some (j + 1)
    | none => if tripleAt (c :: rest) then some 0 else none

/-- `re.search(':::(.*):::', piece)` on a newline-free piece, returning
the whole match `j.group()`: the leftmost match starts at the first
`:::` and the greedy `.*` extends it to the last `:::` that starts at
least three characters later. -/
def searchTriple (s : List Char) : Option (List Char) :=
  match firstTripleIdx s, lastTripleIdx s with
  | some i, some j => if i + 3 ≤ j then some ((s.drop i).take (j + 3 - i)) else none
  | _, _ => none

/-- `re.sub(':::', '', t)`. -/
def removeTriples : List Char → List Char
  | ':' :: ':' :: ':' :: rest => removeTriples rest
  | c :: rest => c :: removeTriples rest
  | [] => []

/-- The document-order list of raw key fragments produced by the
`ExtractTexkeys` pipeline, before insertion into the mapping. -/
def ExtractTexkeysRaw (s : List Char) : List (List Char) :=
  (((splitOnChar '\n' (citeSub s)).filterMap searchTriple).map removeTriples).flatMap
    (splitOnChar ',')

/-- One insertion step: `if not self.texkey.has_key(j): self.texkey[j] = '';
self.list.append(j)`.  The dict values are always `''`, so the ordered
list `self.list` determines the whole mapping state. -/
def insertKey (acc : List (List Char)) (k : List Char) : List (List Char) :=
  if k ∈ acc then acc else acc ++ [k]

/-- `Cite.ExtractTexkeys` starting from an empty mapping: the ordered
key list after inserting every raw fragment in document order. -/
def ExtractTexkeys (s : List Char) : List (List Char) :=
  (ExtractTexkeysRaw s).foldl insertKey []

/-! ## Bibliography-key extractor (src/getinspire/getinspire.py, ExtractBibkeys)

`re.sub(r'\@[A-Za-z]+{(T),', r':::\1:::', s).split('\n')` with
`T = texkeyregex = [a-zA-Z'.\-]*:[0-9a-z]*`, then per line
`re.search(':::(.*):::')`, `re.sub(':::','')`, collected into a dict. -/

/-- Character class `[0-9a-z]` of `texkeyregex` (no IGNORECASE here). -/
def isTexSuffixChar (c : Char) : Bool :=
  isDigit09 c || isLowerAZ c

/-- One fuel unit consumes at least one input character, so `bibSub`
passes `s.length` as fuel and the `0` case is dead code.  The scanner
mirrors `re.sub(r'\@[A-Za-z]+{(T),', r':::\1:::', s)`: each class in the
pattern excludes the delimiter that follows it, so greedy matching is
deterministic, and on failure the scan resumes one character later. -/
def bibSubF : Nat → List Char → List Char
  | 0, s => s
  | _ + 1, [] => []
  | fuel + 1, '@' :: rest =>
    match rest.span (fun c => isLowerAZ c || isUpperAZ c) with
    | (w, '{' :: rest2) =>
      if w = [] then '@' :: bibSubF fuel rest
      else
        match rest2.span isTexLabelChar with
        | (lab, ':' :: rest3) =>
          match rest3.span isTexSuffixChar with
          | (suf, ',' :: rem) =>
            (':' :: ':' :: ':' :: (lab ++ (':' :: suf) ++ (':' :: ':' :: ':' :: [])))
              ++ bibSubF fuel rem
          | _ => '@' :: bibSubF fuel rest
        | _ => '@' :: bibSubF fuel rest
    | _ => '@' :: bibSubF fuel rest
  | fuel + 1, c :: rest => c :: bibSubF fuel rest

def bibSub (s : List Char) : List Char := bibSubF s.length s

/-- `ExtractBibkeys`: the set of keys found in the bib-file text, as the
list of first occurrences (the Python dict maps each key to `''`, so
membership determines the state). -/
def ExtractBibkeys (s : List Char) : List (List Char) :=
  ((((splitOnChar '\n' (bibSub s)).filterMap searchTriple).map removeTriples)).foldl
    insertKey []

/-- The fetch decision of `insert_BibTeXRecord_to_bib_file` for one key of
the Cite mapping: a record is downloaded exactly when `checkfind` files
the key as `texkey` and the key is not a key of the bib file's dict
(`bibtexfile_keys.has_key(i)` — exact dictionary lookup). -/
def bibFetchAttempted (bibKeys : List (List Char)) (key : List Char) : Bool :=
  (checkfind key == FindCat.texkey) && !(decide (key ∈ bibKeys))

/-! ## BibTeX record-key parser (src/getinspire/getinspire.py, Record.getBibTeX)

`re.search(r'@[A-Za-z]+{(.*),', BibTeX)` for the texkey and
`re.search('eprint\s*=(.*),', BibTeX)` for the eprint; `.` does not
match a newline and the groups are greedy, so each group runs to the
last comma on the matched line. -/

/-- Text before the last `,` of `line`, if `line` contains a comma. -/
def lastCommaPrefix (line : List Char) : Option (List Char) :=
  match line.reverse.span (fun c => !(c == ',')) with
  | (_, ',' :: revRest) => some revRest.reverse
  | _ => none

/-- `@[A-Za-z]+{(.*),` matched at the head of `t`: `@`, a nonempty
letter run, `{`, then the greedy group up to the last comma on the line. -/
def atRecordKey (t : List Char) : Option (List Char) :=
  match t with
  | '@' :: rest =>
    match rest.span (fun c => isLowerAZ c || isUpperAZ c) with
    | (w, '{' :: rest2) =>
      if w = [] then none else lastCommaPrefix (rest2.takeWhile (fun c => !(c == '\n')))
    | _ => none
  | _ => none

/-- `re.search(r'@[A-Za-z]+{(.*),', s)`: group 1 of the leftmost match. -/
def recordKeySearch : List Char → Option (List Char)
  | [] => none
  | c :: rest =>
    match atRecordKey (c :: rest) with
    | some g => some g
    | none => recordKeySearch rest

/-- `eprint\s*=(.*),` matched at the head of `t`. -/
def atEprint (t : List Char) : Option (List Char) :=
  match t with
  | 'e' :: 'p' :: 'r' :: 'i' :: 'n' :: 't' :: rest =>
    match rest.span isPySpace with
    | (_, '=' :: rest2) => lastCommaPrefix (rest2.takeWhile (fun c => !(c == '\n')))
    | _ => none
  | _ => none

/-- `re.search('eprint\s*=(.*),', s)`: group 1 of the leftmost match. -/
def eprintSearch : List Char → Option (List Char)
  | [] => none
  | c :: rest =>
    match atEprint (c :: rest) with
    | some g => some g
    | none => eprintSearch rest

/-- `re.sub('\s*"', '', t)`: remove every whitespace run that is
immediately followed by a double quote, together with that quote.  One
fuel unit consumes at least one character, so fuel `t.length` suffices. -/
def removeWsQuoteF : Nat → List Char → List Char
  | 0, s => s
  | _ + 1, [] => []
  | fuel + 1, c :: rest =>
    match (c :: rest).span isPySpace with
    | (_, q :: rem) =>
      if q == dquote then removeWsQuoteF fuel rem
      else c :: removeWsQuoteF fuel rest
    | _ => c :: removeWsQuoteF fuel rest

def removeWsQuote (s : List Char) : List Char := removeWsQuoteF s.length s

/-- The two dictionaries of a `Record` object. -/
structure RecordState where
  eprint : List (List Char × List Char)
  texkey : List (List Char × List Char)
deriving DecidableEq

/-- Python dict assignment `m[k] = v` on an association list. -/
def setAssoc (m : List (List Char × List Char)) (k v : List Char) :
    List (List Char × List Char) :=
  (k, v) :: m.filter (fun p => !(p.1 == k))

/-- `Record.getBibTeX`, with the fetched page content as the oracle
argument: extract `Bibtexkey` and `Bibeprint` (empty string when the
pattern is absent), update the two dictionaries only when both are
nonempty, and always return the content unchanged. -/
def Record.getBibTeX (st : RecordState) (content : List Char) :
    RecordState × List Char :=
  let bibtexkey := (recordKeySearch content).getD []
  let bibeprint :=
    match eprintSearch content with
    | some g => removeWsQuote g
    | none => []
  if bibtexkey ≠ [] ∧ bibeprint ≠ [] then
    ({ texkey := setAssoc st.texkey bibeprint bibtexkey,
       eprint := setAssoc st.eprint bibtexkey bibeprint }, content)
  else (st, content)

/-! ## Keep-first deduplication (order of first occurrence) -/

/-- `dedupScan seen l`: the elements of `l` not in `seen`, first
occurrences only, in order. -/
def dedupScan (seen : List (List Char)) : List (List Char) → List (List Char)
  | [] => []
  | x :: xs => if x ∈ seen then dedupScan seen xs else x :: dedupScan (x :: seen) xs

/-- Unique elements of `l` in order of first occurrence. -/
def dedupFirst (l : List (List Char)) : List (List Char) :=
  dedupScan [] l

/-! ## Replacement Engine

Modelled from the spec: the Position-based Replacement Engine of spec
section 4.5 — the `Position`/`Ref` classes and the batch apply-with-
consistency-check code are not under `src/` (only their caller
`TeX.references`, which constructs `Ref` objects, is).  Contract:
`apply(document_text, list of (position, old_text, new_text))`;
algorithm: sort the batch by position in descending order, split the
document into physical lines, for each replacement verify that the
substring at `[line][column : column + len(old_text)]` equals
`old_text` — failing immediately on a mismatch with the exact location,
expected text and found text — else splice the new text in, and finally
re-join the lines with the newline separator. -/

/-- One replacement site: a zero-origin line/column position, the text
expected there, and the replacement text. -/
structure Site where
  line : Nat
  col : Nat
  old : List Char
  new : List Char
deriving DecidableEq

/-- `siteOrd a b`: site `a` comes no later than `b` in the descending
sort, i.e. the position of `b` is lexicographically at most that of `a`. -/
def siteOrd (a b : Site) : Prop :=
  b.line < a.line ∨ (b.line = a.line ∧ b.col ≤ a.col)

instance : DecidableRel siteOrd := fun a b => by
  unfold siteOrd; exact inferInstance

instance : IsTotal Site siteOrd := by
  constructor
  intro a b
  rcases Nat.lt_trichotomy a.line b.line with h | h | h
  · exact Or.inr (Or.inl h)
  · rcases Nat.le_total b.col a.col with hc | hc
    · exact Or.inl (Or.inr ⟨h.symm, hc⟩)
    · exact Or.inr (Or.inr ⟨h, hc⟩)
  · exact Or.inl (Or.inl h)

instance : IsTrans Site siteOrd := by
  constructor
  intro a b c hab hbc
  rcases hab with h1 | ⟨h1, h1c⟩ <;> rcases hbc with h2 | ⟨h2, h2c⟩
  · exact Or.inl (h2.trans h1)
  · exact Or.inl (h2 ▸ h1)
  · exact Or.inl (h1 ▸ h2)
  · exact Or.inr ⟨h2.trans h1, h2c.trans h1c⟩

/-- The error report of a failed consistency check: location, expected
old text, and the text actually found there. -/
structure ReplaceError where
  line : Nat
  col : Nat
  expected : List Char
  found : List Char
deriving DecidableEq

/-- Split a document into physical lines. -/
def splitLines (s : List Char) : List (List Char) := splitOnChar '\n' s

/-- Re-join lines with the newline separator. -/
def joinLines : List (List Char) → List Char
  | [] => []
  | [l] => l
  | l :: l2 :: ls => l ++ '\n' :: joinLines (l2 :: ls)

/-- Apply one replacement to the line buffer: verify that the text at
`[r.line][r.col : r.col + r.old.length]` is exactly `r.old`, then splice
`r.new` in; fail with the location and the mismatching text otherwise
(a position beyond the last line reports an empty found text). -/
def applyOne (buf : List (List Char)) (r : Site) :
    Except ReplaceError (List (List Char)) :=
  match buf[r.line]? with
  | none => Except.error ⟨r.line, r.col, r.old, []⟩
  | some ln =>
    let actual := (ln.drop r.col).take r.old.length
    if actual = r.old then
      Except.ok (buf.set r.line (ln.take r.col ++ r.new ++ ln.drop (r.col + r.old.length)))
    else Except.error ⟨r.line, r.col, r.old, actual⟩

/-- Apply the replacements in list order, stopping at the first failure. -/
def applyAll (buf : List (List Char)) : List Site → Except ReplaceError (List (List Char))
  | [] => Except.ok buf
  | r :: rs =>
    match applyOne buf r with
    | Except.ok buf2 => applyAll buf2 rs
    | Except.error e => Except.error e

/-- Modelled from the spec: the Replacement Engine of spec section 4.5 is
missing from `src/` (only its caller `TeX.references` is present).  Sort
the batch by position in descending order, split into lines, apply each
replacement with its consistency check, re-join.  On any failure no
document is produced. -/
def applyReplacements (text : List Char) (rs : List Site) :
    Except ReplaceError (List Char) :=
  match applyAll (splitLines text) (List.insertionSort siteOrd rs) with
  | Except.ok buf => Except.ok (joinLines buf)
  | Except.error e => Except.error e

/-- The consistency check of a site against a line buffer, in isolation:
true when the text found at the site's position equals its `old` text. -/
def checkAt (buf : List (List Char)) (r : Site) : Bool :=
  match buf[r.line]? with
  | some ln => (ln.drop r.col).take r.old.length == r.old
  | none => false

/-- A well-formed batch: every expected old text is nonempty (a key is
never the empty string) and sites on a common line occupy disjoint
column ranges (spec: keys do not overlap within one line). -/
def sepSites (rs : List Site) : Prop :=
  (∀ r ∈ rs, r.old ≠ []) ∧
    rs.Pairwise (fun a b => a.line = b.line →
      a.col + a.old.length ≤ b.col ∨ b.col + b.old.length ≤ a.col)

instance (rs : List Site) : Decidable (sepSites rs) := by
  unfold sepSites
  exact inferInstance

/-- The line/column offset `(l, c)` lies in the column range that site
`r` replaces. -/
def covers (r : Site) (l c : Nat) : Prop :=
  r.line = l ∧ r.col ≤ c ∧ c < r.col + r.old.length

instance (r : Site) (l c : Nat) : Decidable (covers r l c) := by
  unfold covers; exact inferInstance

/-- The byte of document `t` at zero-origin line `l`, column `c`. -/
def byteAt (t : List Char) (l c : Nat) : Option Char :=
  (splitLines t)[l]?.bind fun ln => ln[c]?

/-! ## Claim theorems -/

/-- C3: the key classifier maps `Deshpande:1977rw` to the canonical
(INSPIRE) form, `hep-ph/0603188` and `1207.7214` to the alternate
(ARXIV) form, and `random text` to the unrecognized form; for every
string it returns exactly one of the three forms, and the canonical
pattern is checked before the alternate pattern. -/
theorem c3_key_classification :
    Key.format (("Deshpande:1977rw").toList) =
      ((("Deshpande:1977rw").toList), KeyType.INSPIRE)
    ∧ (Key.format (("hep-ph/0603188").toList)).2 = KeyType.ARXIV
    ∧ (Key.format (("1207.7214").toList)).2 = KeyType.ARXIV
    ∧ (Key.format (("random text").toList)).2 = KeyType.UNKNOWN
    ∧ (∀ s : List Char, (Key.format s).2 = KeyType.INSPIRE ∨
        (Key.format s).2 = KeyType.ARXIV ∨ (Key.format s).2 = KeyType.UNKNOWN)
    ∧ (∀ s : List Char, inspireMatch s = true → (Key.format s).2 = KeyType.INSPIRE) := by
  refine ⟨by decide, by decide, by decide, by decide, ?_, ?_⟩
  · intro s
    unfold Key.format
    by_cases h : inspireMatch s
    · simp [h]
    · simp only [h]
      cases arxivMatch s <;> simp
  · intro s h
    simp [Key.format, h]

/-- Witness for the quantified parts of the C3 theorem at the concrete
key `a:b`, whose canonical-pattern match is discharged by `decide`. -/
theorem c3_key_classification_witness :
    inspireMatch (("a:b").toList) = true ∧
      (Key.format (("a:b").toList)).2 = KeyType.INSPIRE :=
  ⟨by decide, c3_key_classification.2.2.2.2.2 (("a:b").toList) (by decide)⟩

/-- C4: the fetch operation fails with the Unsupported outcome exactly
when the key classifies as unrecognized; otherwise it fails with
NotFound exactly when the service's result list is empty, with Ambiguous
exactly when that list has more than one entry, and returns the single
result's content (stripped of surrounding whitespace) otherwise. -/
theorem c4_fetch_outcomes (key : List Char) (results : List (List Char)) :
    ((Inspire.fetch key results = Except.error FetchError.unsupported) ↔
      (Key.format key).2 = KeyType.UNKNOWN)
    ∧ ((Key.format key).2 ≠ KeyType.UNKNOWN →
        ((Inspire.fetch key results = Except.error FetchError.notFound ↔ results = [])
        ∧ (Inspire.fetch key results = Except.error FetchError.ambiguous ↔
            1 < results.length)
        ∧ (∀ r, results = [r] →
            Inspire.fetch key results = Except.ok (pstrip r)))) := by
  unfold Inspire.fetch
  rcases hk : (Key.format key).2 <;>
    rcases results with _ | ⟨r, _ | ⟨r2, rest⟩⟩ <;>
      simp_all

/-- Witness for the C4 theorem: at the canonical key `a:b` with an empty
result list the fetch reports NotFound. -/
theorem c4_fetch_outcomes_witness :
    (Key.format (("a:b").toList)).2 ≠ KeyType.UNKNOWN ∧
      (Inspire.fetch (("a:b").toList) [] = Except.error FetchError.notFound ↔
        ([] : List (List Char)) = []) :=
  ⟨by decide, ((c4_fetch_outcomes (("a:b").toList) []).2 (by decide)).1⟩

/-- The document line of the comment-stripping test: `\cite{A} % \cite{B}`. -/
def c5doc : List Char := ("\\cite\x7bA\x7d % \\cite\x7bB\x7d").toList

/-- C5 counterexample: extraction on `\cite{A} % \cite{B}` does NOT
yield exactly the one key `A` — the text after the comment marker is
extracted as well, because `Cite.ExtractTexkeys` runs on the raw
document text (`getinspire_main` applies its comment-dropping
substitution only to the copy used for locating the `\bibliography`
declaration, never to the text handed to the extractor). -/
theorem c5_counterexample : ExtractTexkeys c5doc ≠ [("A").toList] := by decide

/-- C5 (amended): reference extraction does not ignore commented-out
text: for the document line `\cite{A} % \cite{B}` it yields exactly the
two keys `A` and `B`, in order; no comment marker, escaped or not, ever
drops text from the extractor's input. -/
theorem c5_comment_text_extracted :
    ExtractTexkeys c5doc = [("A").toList, ("B").toList] := by decide

/-- C9: for the multi-key citation `\cite{A,,B}` the extractor stores
the empty-string key as a first-class entry of the mapping, in document
order between `A` and `B`. -/
theorem c9_empty_key_tracked :
    ExtractTexkeys (("\\cite\x7bA,,B\x7d").toList) =
      [("A").toList, ([] : List Char), ("B").toList]
    ∧ ([] : List Char) ∈ ExtractTexkeys (("\\cite\x7bA,,B\x7d").toList) := by
  exact ⟨by decide, by decide⟩

/-- C7 counterexample: membership in the bibliography store's key set is
NOT tested case-insensitively.  The bib file knows `Komine:2000tj`; the
lowercased key `komine:2000tj` is case-insensitively present, yet the
fetch decision of `insert_BibTeXRecord_to_bib_file` still attempts a
download (`bibtexfile_keys.has_key(i)` is an exact dict lookup). -/
theorem c7_counterexample :
    (("komine:2000tj").toList).map Char.toLower ∈
      (ExtractBibkeys (("@article\x7bKomine:2000tj,\n").toList)).map
        (fun k => k.map Char.toLower)
    ∧ bibFetchAttempted (ExtractBibkeys (("@article\x7bKomine:2000tj,\n").toList))
        (("komine:2000tj").toList) = true := by
  exact ⟨by decide, by decide⟩

/-- C7 (amended): a reference whose key is already present — by exact,
case-sensitive string equality — among the keys `ExtractBibkeys` found
in the bibliography store is skipped with no fetch attempted. -/
theorem c7_skip_when_present (art key : List Char)
    (h : key ∈ ExtractBibkeys art) :
    bibFetchAttempted (ExtractBibkeys art) key = false := by
  unfold bibFetchAttempted
  simp [h]

/-- Witness for the C7 theorem: the key `Komine:2000tj` is present in
the bib file verbatim and no fetch is attempted for it. -/
theorem c7_skip_when_present_witness :
    ("Komine:2000tj").toList ∈
      ExtractBibkeys (("@article\x7bKomine:2000tj,\n").toList)
    ∧ bibFetchAttempted (ExtractBibkeys (("@article\x7bKomine:2000tj,\n").toList))
        (("Komine:2000tj").toList) = false :=
  ⟨by decide, c7_skip_when_present _ _ (by decide)⟩

/-- C8 counterexample: when the fetched content lacks the leading
`@RecordType{key,` pattern, `Record.getBibTeX` does not abort and does
not reject the content — it returns the malformed content unchanged
(and the caller appends any content other than the literal `NotFound`
to the bib file). -/
theorem c8_counterexample :
    recordKeySearch (("garbage page").toList) = none
    ∧ Record.getBibTeX ⟨[], []⟩ (("garbage page").toList) =
        (⟨[], []⟩, ("garbage page").toList) := by
  exact ⟨by decide, by decide⟩

/-- C8 (amended): when the fetched content does not contain the expected
record pattern `@RecordType{key,`, no canonical key is extracted from it
and the record dictionaries are left unchanged, but the content itself
is returned to the caller as-is rather than raising an error. -/
theorem c8_no_key_extracted (st : RecordState) (content : List Char)
    (h : recordKeySearch content = none) :
    Record.getBibTeX st content = (st, content) := by
  unfold Record.getBibTeX
  simp [h]

/-- Witness for the C8 theorem at a concrete malformed content. -/
theorem c8_no_key_extracted_witness :
    recordKeySearch (("no record here").toList) = none
    ∧ Record.getBibTeX ⟨[], []⟩ (("no record here").toList) =
        (⟨[], []⟩, ("no record here").toList) :=
  ⟨by decide, c8_no_key_extracted ⟨[], []⟩ (("no record here").toList) (by decide)⟩

/-! ## C6: uniqueness and first-occurrence order of the key mapping -/

theorem foldl_insertKey_eq (l : List (List Char)) :
    ∀ (acc seen : List (List Char)), (∀ k, k ∈ seen ↔ k ∈ acc) →
      l.foldl insertKey acc = acc ++ dedupScan seen l := by
  induction l with
  | nil => intro acc seen _; simp [dedupScan]
  | cons x xs ih =>
    intro acc seen h
    simp only [List.foldl_cons, dedupScan]
    by_cases hx : x ∈ seen
    · have hxa : x ∈ acc := (h x).mp hx
      rw [if_pos hx]
      have hins : insertKey acc x = acc := by simp [insertKey, hxa]
      rw [hins]
      exact ih acc seen h
    · have hxa : x ∉ acc := fun hc => hx ((h x).mpr hc)
      rw [if_neg hx]
      have hins : insertKey acc x = acc ++ [x] := by simp [insertKey, hxa]
      rw [hins, ih (acc ++ [x]) (x :: seen) ?_]
      · simp
      · intro k
        simp only [List.mem_cons, List.mem_append, List.mem_singleton, h k]
        tauto

theorem not_mem_dedupScan (l : List (List Char)) :
    ∀ (seen : List (List Char)) (a : List Char), a ∈ seen → a ∉ dedupScan seen l := by
  induction l with
  | nil => intro seen a _; simp [dedupScan]
  | cons x xs ih =>
    intro seen a ha
    simp only [dedupScan]
    by_cases hx : x ∈ seen
    · rw [if_pos hx]; exact ih seen a ha
    · rw [if_neg hx]
      intro hmem
      rcases List.mem_cons.mp hmem with rfl | hmem
      · exact hx ha
      · exact ih (x :: seen) a (List.mem_cons_of_mem x ha) hmem

theorem dedupScan_nodup (l : List (List Char)) :
    ∀ seen : List (List Char), (dedupScan seen l).Nodup := by
  induction l with
  | nil => intro seen; simp [dedupScan]
  | cons x xs ih =>
    intro seen
    simp only [dedupScan]
    by_cases hx : x ∈ seen
    · rw [if_pos hx]; exact ih seen
    · rw [if_neg hx]
      exact List.nodup_cons.mpr
        ⟨not_mem_dedupScan xs (x :: seen) x (List.mem_cons_self x seen), ih (x :: seen)⟩

/-- C6: the extracted key mapping has unique keys, listed in order of
each key's first occurrence among the raw fragments of the document
(`dedupFirst` of the document-order fragment list), and inserting an
already-seen key leaves the mapping entirely unchanged — no duplicate
entry, no change of order. -/
theorem c6_unique_first_occurrence_order (s : List Char) :
    ExtractTexkeys s = dedupFirst (ExtractTexkeysRaw s)
    ∧ (ExtractTexkeys s).Nodup
    ∧ (∀ (acc : List (List Char)) (k : List Char), k ∈ acc → insertKey acc k = acc) := by
  have h1 : ExtractTexkeys s = dedupFirst (ExtractTexkeysRaw s) := by
    unfold ExtractTexkeys dedupFirst
    simpa using foldl_insertKey_eq (ExtractTexkeysRaw s) [] [] (by simp)
  refine ⟨h1, ?_, ?_⟩
  · rw [h1]; exact dedupScan_nodup (ExtractTexkeysRaw s) []
  · intro acc k hk; simp [insertKey, hk]

/-- Witness for the C6 theorem: the document `\cite{A,B} \cite{B,A}`
repeats both keys; the mapping keeps one entry per key in first-seen
order, and re-inserting a seen key is the identity. -/
theorem c6_unique_first_occurrence_order_witness :
    ExtractTexkeys (("\\cite\x7bA,B\x7d \\cite\x7bB,A\x7d").toList) =
      dedupFirst (ExtractTexkeysRaw (("\\cite\x7bA,B\x7d \\cite\x7bB,A\x7d").toList))
    ∧ (ExtractTexkeys (("\\cite\x7bA,B\x7d \\cite\x7bB,A\x7d").toList)).Nodup
    ∧ insertKey [("A").toList] (("A").toList) = [("A").toList] := by
  have h := c6_unique_first_occurrence_order (("\\cite\x7bA,B\x7d \\cite\x7bB,A\x7d").toList)
  exact ⟨h.1, h.2.1, h.2.2 [("A").toList] (("A").toList) (by decide)⟩

/-! ## C10: comparing checkfind with Key.format -/

theorem hasDotted_append (l1 l2 : List Char) (h : hasDotted l2 = true) :
    hasDotted (l1 ++ l2) = true := by
  induction l1 with
  | nil => simpa using h
  | cons c rest ih =>
    rw [List.cons_append]
    show (dottedAt (c :: (rest ++ l2)) || hasDotted (rest ++ l2)) = true
    rw [ih]
    simp

theorem hasSeven_append (l1 l2 : List Char) (h : hasSeven l2 = true) :
    hasSeven (l1 ++ l2) = true := by
  induction l1 with
  | nil => simpa using h
  | cons c rest ih =>
    rw [List.cons_append]
    show (sevenAt (c :: (rest ++ l2)) || hasSeven (rest ++ l2)) = true
    rw [ih]
    simp

theorem hasDotted_drop (s : List Char) (k : Nat)
    (h : hasDotted (s.drop k) = true) : hasDotted s = true := by
  rw [← List.take_append_drop k s]
  exact hasDotted_append _ _ h

theorem hasSeven_drop (s : List Char) (k : Nat)
    (h : hasSeven (s.drop k) = true) : hasSeven s = true := by
  rw [← List.take_append_drop k s]
  exact hasSeven_append _ _ h

theorem dotForm_hasDotted (t : List Char) (h : dotForm t = true) :
    hasDotted t = true := by
  rcases t with _ | ⟨a, _ | ⟨b, _ | ⟨c, _ | ⟨d, _ | ⟨e, rest⟩⟩⟩⟩⟩ <;>
    simp only [dotForm] at h
  · exact absurd h (by simp)
  · exact absurd h (by simp)
  · exact absurd h (by simp)
  · exact absurd h (by simp)
  · exact absurd h (by simp)
  · simp only [Bool.and_eq_true, beq_iff_eq, Bool.or_eq_true] at h
    obtain ⟨⟨⟨⟨⟨⟨ha, hb⟩, hc⟩, hd⟩, he⟩, hlen⟩, hall⟩ := h
    have hrest : ∃ f g h2 i rest2, rest = f :: g :: h2 :: i :: rest2 := by
      rcases rest with _ | ⟨f, _ | ⟨g, _ | ⟨h2, _ | ⟨i, rest2⟩⟩⟩⟩ <;>
        simp at hlen
      exact ⟨f, g, h2, i, rest2, rfl⟩
    obtain ⟨f, g, h2, i, rest2, rfl⟩ := hrest
    simp only [List.all_cons, Bool.and_eq_true] at hall
    simp [hasDotted, dottedAt, ha, hb, hc, hd, he, hall.1, hall.2.1, hall.2.2.1,
      hall.2.2.2.1]

theorem sevenAt_of_digits (d : List Char) (hlen : d.length = 7)
    (hall : d.all isDigit09 = true) : sevenAt d = true := by
  rcases d with _ | ⟨a, _ | ⟨b, _ | ⟨c, _ | ⟨e, _ | ⟨f, _ | ⟨g, _ | ⟨h, rest⟩⟩⟩⟩⟩⟩⟩ <;>
    simp_all [sevenAt]

theorem slashForm_hasSeven (t : List Char) (h : slashForm t = true) :
    hasSeven t = true := by
  unfold slashForm at h
  rcases hsp : t.span isSlashLabelChar with ⟨a, d⟩
  rw [hsp] at h
  rcases d with _ | ⟨c0, d'⟩
  · simp at h
  · simp only [Bool.and_eq_true, beq_iff_eq, bne_iff_ne, ne_eq] at h
    obtain ⟨⟨⟨hc0, _⟩, hlen⟩, hall⟩ := h
    have ht : t = a ++ c0 :: d' := by
      have hspan := List.span_eq_take_drop (p := isSlashLabelChar) t
      rw [hsp] at hspan
      have h1 : a = t.takeWhile isSlashLabelChar := congrArg Prod.fst hspan
      have h2 : c0 :: d' = t.dropWhile isSlashLabelChar := congrArg Prod.snd hspan
      rw [h1, h2, List.takeWhile_append_dropWhile]
    have hsev : sevenAt d' = true := sevenAt_of_digits d' hlen hall
    have hd' : hasSeven d' = true := by
      rcases d' with _ | ⟨x, xs⟩
      · simp at hlen
      · simp [hasSeven, hsev]
    have hc : hasSeven (c0 :: d') = true := by
      simp [hasSeven, hd']
    rw [ht]
    exact hasSeven_append _ _ hc

theorem arxivCore_search (t : List Char) (h : arxivCore t = true) :
    hasDotted t = true ∨ hasSeven t = true := by
  unfold arxivCore at h
  rcases Bool.or_eq_true_iff.mp h with h' | h'
  · exact Or.inr (slashForm_hasSeven t h')
  · exact Or.inl (dotForm_hasDotted t h')

theorem arxivMatch_search (s g : List Char) (h : arxivMatch s = some g) :
    hasDotted s = true ∨ hasSeven s = true := by
  unfold arxivMatch at h
  split_ifs at h with h1 h2 h3
  · have := arxivCore_search (s.drop 6) (Bool.and_eq_true_iff.mp h1).2
    rcases this with hd | hs
    · exact Or.inl (hasDotted_drop s 6 hd)
    · exact Or.inr (hasSeven_drop s 6 hs)
  · have := arxivCore_search (s.drop 5) (Bool.and_eq_true_iff.mp h2).2
    rcases this with hd | hs
    · exact Or.inl (hasDotted_drop s 5 hd)
    · exact Or.inr (hasSeven_drop s 5 hs)
  · rcases arxivCore_search s h3 with hd | hs
    · exact Or.inl hd
    · exact Or.inr hs

theorem colon_texkeySearch (s : List Char) (h : ':' ∈ s) :
    texkeySearch s = true := by
  induction s with
  | nil => simp at h
  | cons c rest ih =>
    rcases List.mem_cons.mp h with hc | h'
    · have hat : texkeyAt (c :: rest) = true := by
        unfold texkeyAt
        have hp : isTexLabelChar ':' = false := by decide
        rw [List.span_eq_take_drop]
        simp [List.takeWhile_cons, List.dropWhile_cons, ← hc, hp]
      simp [texkeySearch, hat]
    · simp [texkeySearch, ih h']

theorem inspireMatch_colon (s : List Char) (h : inspireMatch s = true) :
    ':' ∈ s := by
  unfold inspireMatch at h
  rcases hsp : s.span isInspireLabelChar with ⟨a, d⟩
  rw [hsp] at h
  rcases d with _ | ⟨c0, b⟩
  · simp at h
  · simp only [Bool.and_eq_true, beq_iff_eq] at h
    have hc0 : c0 = ':' := h.1.1.1
    have hs : s = a ++ c0 :: b := by
      have hspan := List.span_eq_take_drop (p := isInspireLabelChar) s
      rw [hsp] at hspan
      have h1 : a = s.takeWhile isInspireLabelChar := congrArg Prod.fst hspan
      have h2 : c0 :: b = s.dropWhile isInspireLabelChar := congrArg Prod.snd hspan
      rw [h1, h2, List.takeWhile_append_dropWhile]
    rw [hs, hc0]
    simp

/-- C10 counterexample: the legacy classifier and `Key.format` disagree
on `Ab:cd ef`: the unanchored search of `checkfind` files it under
`texkey` (it merely contains a colon), while the anchored
`INSPIRE_REGEX` of `Key.format` rejects it (it contains a space), so the
claimed equivalence `texkey ↔ INSPIRE` fails. -/
theorem c10_counterexample :
    ¬(checkfind (("Ab:cd ef").toList) = FindCat.texkey ↔
      (Key.format (("Ab:cd ef").toList)).2 = KeyType.INSPIRE) := by
  decide

/-- C10 (amended): the agreement holds only one way round.  For every
string, if `Key.format` yields ARXIV then `checkfind` yields `eprint`,
and if `checkfind` yields `other` then `Key.format` yields UNKNOWN (so a
key `Key.format` accepts is never filed under `other`); the full
three-way equivalence is refuted by `Ab:cd ef`. -/
theorem c10_partial_agreement (s : List Char) :
    ((Key.format s).2 = KeyType.ARXIV → checkfind s = FindCat.eprint)
    ∧ (checkfind s = FindCat.other → (Key.format s).2 = KeyType.UNKNOWN) := by
  constructor
  · intro h
    unfold Key.format at h
    by_cases him : inspireMatch s
    · rw [if_pos him] at h
      simp at h
    · rw [if_neg him] at h
      rcases harx : arxivMatch s with _ | g
      · rw [harx] at h; simp at h
      · have hor := arxivMatch_search s g harx
        unfold checkfind
        rcases hor with hd | hs
        · rw [if_pos (by simp [hd])]
        · rw [if_pos (by simp [hs])]
  · intro h
    unfold checkfind at h
    by_cases h1 : (hasDotted s || hasSeven s) = true
    · rw [if_pos h1] at h; simp at h
    · rw [if_neg h1] at h
      by_cases h2 : texkeySearch s = true
      · rw [if_pos h2] at h; simp at h
      · have hnc : ':' ∉ s := fun hc => h2 (colon_texkeySearch s hc)
        have him : inspireMatch s = false := by
          rcases Bool.eq_false_or_eq_true (inspireMatch s) with ht | hf
          · exact absurd (inspireMatch_colon s ht) hnc
          · exact hf
        have ham : arxivMatch s = none := by
          rcases harx : arxivMatch s with _ | g
          · rfl
          · rcases arxivMatch_search s g harx with hd | hs
            · simp [hd] at h1
            · simp [hs] at h1
        simp [Key.format, him, ham]

/-- Witness for the C10 theorem: `1207.7214` is ARXIV for `Key.format`
and indeed `eprint` for `checkfind`. -/
theorem c10_partial_agreement_witness :
    checkfind (("1207.7214").toList) = FindCat.eprint :=
  (c10_partial_agreement (("1207.7214").toList)).1 (by decide)

/-! ## C1: fail-fast consistency checking of the Replacement Engine -/

theorem applyOne_ok_elim {buf buf' : List (List Char)} {x : Site}
    (h : applyOne buf x = Except.ok buf') :
    ∃ ln, buf[x.line]? = some ln ∧
      (ln.drop x.col).take x.old.length = x.old ∧
      buf' = buf.set x.line
        (ln.take x.col ++ x.new ++ ln.drop (x.col + x.old.length)) := by
  unfold applyOne at h
  rcases hb : buf[x.line]? with _ | ln
  · rw [hb] at h; simp at h
  · rw [hb] at h
    simp only at h
    split_ifs at h with hc
    exact ⟨ln, rfl, hc, by injection h with h'; exact h'.symm⟩

theorem success_bound {ln : List Char} {x : Site}
    (h : (ln.drop x.col).take x.old.length = x.old) (hne : x.old ≠ []) :
    x.col + x.old.length ≤ ln.length := by
  have hlen := congrArg List.length h
  simp only [List.length_take, List.length_drop] at hlen
  have hnz : x.old.length ≠ 0 := fun h0 => hne (List.length_eq_zero.mp h0)
  omega

theorem take_eq_of_applyOne {L m : Nat} {x : Site} {buf buf' : List (List Char)}
    (hok : applyOne buf x = Except.ok buf') (hold : x.old ≠ [])
    (hpres : x.line ≠ L ∨ (x.line = L ∧ m ≤ x.col)) :
    buf'[L]?.map (List.take m) = buf[L]?.map (List.take m) := by
  obtain ⟨ln, hget, hcheck, rfl⟩ := applyOne_ok_elim hok
  rcases hpres with hne | ⟨heq, hm⟩
  · rw [List.getElem?_set_ne hne]
  · subst heq
    have hbound : x.col + x.old.length ≤ ln.length := success_bound hcheck hold
    have hlt : x.line < buf.length := by
      by_contra hge
      rw [List.getElem?_eq_none (Nat.le_of_not_lt hge)] at hget
      exact Option.noConfusion hget
    rw [List.getElem?_set, if_pos rfl, if_pos hlt, hget]
    simp only [Option.map_some']
    congr 1
    have hcol : x.col ≤ ln.length := le_trans (Nat.le_add_right _ _) hbound
    have hlen1 : m ≤ (ln.take x.col).length := by
      rw [List.length_take]
      omega
    rw [List.append_assoc, List.take_append_of_le_length hlen1, List.take_take]
    congr 1
    omega

theorem applyAll_take_frame {L m : Nat} :
    ∀ (l : List Site) (buf buf' : List (List Char)),
      (∀ x ∈ l, x.old ≠ [] ∧ (x.line ≠ L ∨ (x.line = L ∧ m ≤ x.col))) →
      applyAll buf l = Except.ok buf' →
      buf'[L]?.map (List.take m) = buf[L]?.map (List.take m) := by
  intro l
  induction l with
  | nil =>
    intro buf buf' _ h
    unfold applyAll at h
    injection h with h
    rw [h]
  | cons x xs ih =>
    intro buf buf' hx h
    unfold applyAll at h
    rcases h1 : applyOne buf x with e | b2
    · rw [h1] at h; simp at h
    · rw [h1] at h
      have hstep := take_eq_of_applyOne h1 (hx x (List.mem_cons_self x xs)).1
        (hx x (List.mem_cons_self x xs)).2
      have hrest := ih b2 buf' (fun y hy => hx y (List.mem_cons_of_mem x hy)) h
      rw [hrest, hstep]

theorem applyAll_append (l1 l2 : List Site) :
    ∀ buf, applyAll buf (l1 ++ l2) =
      match applyAll buf l1 with
      | Except.ok b => applyAll b l2
      | Except.error e => Except.error e := by
  induction l1 with
  | nil => intro buf; simp [applyAll]
  | cons x xs ih =>
    intro buf
    have hl : applyAll buf (x :: (xs ++ l2)) =
        match applyOne buf x with
        | Except.ok b => applyAll b (xs ++ l2)
        | Except.error e => Except.error e := rfl
    have hr : applyAll buf (x :: xs) =
        match applyOne buf x with
        | Except.ok b => applyAll b xs
        | Except.error e => Except.error e := rfl
    rw [List.cons_append, hl, hr]
    cases h1 : applyOne buf x with
    | error e => simp
    | ok b2 => exact ih b2

theorem checkAt_eq_of_take_eq (buf buf' : List (List Char)) (r : Site)
    (h : buf'[r.line]?.map (List.take (r.col + r.old.length)) =
      buf[r.line]?.map (List.take (r.col + r.old.length))) :
    checkAt buf' r = checkAt buf r := by
  unfold checkAt
  rcases h1 : buf[r.line]? with _ | ln <;> rcases h2 : buf'[r.line]? with _ | ln'
  · rfl
  · rw [h1, h2] at h; simp at h
  · rw [h1, h2] at h; simp at h
  · rw [h1, h2] at h
    simp only [Option.map_some', Option.some_inj] at h
    have key : (ln'.drop r.col).take r.old.length = (ln.drop r.col).take r.old.length := by
      have e1 : (ln.drop r.col).take r.old.length =
          (ln.take (r.col + r.old.length)).drop r.col := by
        rw [List.drop_take]
        congr 1
        omega
      have e2 : (ln'.drop r.col).take r.old.length =
          (ln'.take (r.col + r.old.length)).drop r.col := by
        rw [List.drop_take]
        congr 1
        omega
      rw [e1, e2, h]
    show (List.take r.old.length (List.drop r.col ln') == r.old) =
      (List.take r.old.length (List.drop r.col ln) == r.old)
    rw [key]

theorem checkAt_false_applyOne_error (buf : List (List Char)) (r : Site)
    (h : checkAt buf r = false) : ∃ e, applyOne buf r = Except.error e := by
  unfold checkAt at h
  unfold applyOne
  rcases hb : buf[r.line]? with _ | ln
  · exact ⟨_, rfl⟩
  · rw [hb] at h
    simp only [beq_eq_false_iff_ne, ne_eq] at h
    simp only [if_neg h]
    exact ⟨_, rfl⟩

/-- C1: the Replacement Engine, applied to a document and a batch of
(position, old_text, new_text) sites — well-formed in that the expected
texts are nonempty keys and sites on one line do not overlap — fails
whenever the text actually found at any site of the original document
differs from the expected old text.  The result is an error value and no
new document is produced: the original document is left untouched, so no
partial application can occur. -/
theorem c1_replacement_fail_fast (text : List Char) (rs : List Site)
    (hsep : sepSites rs)
    (hmis : ∃ r ∈ rs, checkAt (splitLines text) r = false) :
    ∃ e, applyReplacements text rs = Except.error e := by
  obtain ⟨r, hr, hcheck⟩ := hmis
  have hperm : (List.insertionSort siteOrd rs).Perm rs :=
    List.perm_insertionSort siteOrd rs
  have hsorted : (List.insertionSort siteOrd rs).Sorted siteOrd :=
    List.sorted_insertionSort siteOrd rs
  have hrl : r ∈ List.insertionSort siteOrd rs := hperm.mem_iff.mpr hr
  obtain ⟨l1, l2, hl⟩ := List.append_of_mem hrl
  have hpair : (List.insertionSort siteOrd rs).Pairwise
      (fun a b => a.line = b.line →
        a.col + a.old.length ≤ b.col ∨ b.col + b.old.length ≤ a.col) := by
    refine (hperm.pairwise_iff ?_).mpr hsep.2
    intro a b h heq
    exact (h heq.symm).symm
  rw [hl] at hsorted hpair
  have hctx1 : ∀ x ∈ l1, siteOrd x r :=
    fun x hx => (List.pairwise_append.mp hsorted).2.2 x hx r (List.mem_cons_self r l2)
  have hctx2 : ∀ x ∈ l1, x.line = r.line →
      x.col + x.old.length ≤ r.col ∨ r.col + r.old.length ≤ x.col :=
    fun x hx => (List.pairwise_append.mp hpair).2.2 x hx r (List.mem_cons_self r l2)
  have hold : ∀ x ∈ l1, x.old ≠ [] := by
    intro x hx
    apply hsep.1
    apply hperm.subset
    rw [hl]
    exact List.mem_append_left _ hx
  have hpres : ∀ x ∈ l1, x.old ≠ [] ∧
      (x.line ≠ r.line ∨ (x.line = r.line ∧ r.col + r.old.length ≤ x.col)) := by
    intro x hx
    refine ⟨hold x hx, ?_⟩
    by_cases hline : x.line = r.line
    · refine Or.inr ⟨hline, ?_⟩
      rcases hctx2 x hx hline with h1 | h2
      · rcases hctx1 x hx with hlt | ⟨heq, hle⟩
        · omega
        · have hz : x.old.length = 0 := by omega
          exact absurd (List.length_eq_zero.mp hz) (hold x hx)
      · exact h2
    · exact Or.inl hline
  have key : ∃ e, applyAll (splitLines text) (List.insertionSort siteOrd rs) =
      Except.error e := by
    rw [hl, applyAll_append]
    rcases hA : applyAll (splitLines text) l1 with e | buf1
    · exact ⟨e, rfl⟩
    · have htake := applyAll_take_frame l1 (splitLines text) buf1 hpres hA
      have hc1 : checkAt buf1 r = false :=
        (checkAt_eq_of_take_eq (splitLines text) buf1 r htake).trans hcheck
      obtain ⟨e, hE⟩ := checkAt_false_applyOne_error buf1 r hc1
      refine ⟨e, ?_⟩
      show applyAll buf1 (r :: l2) = Except.error e
      have : applyAll buf1 (r :: l2) =
          match applyOne buf1 r with
          | Except.ok b2 => applyAll b2 l2
          | Except.error e' => Except.error e' := rfl
      rw [this, hE]
  obtain ⟨e, he⟩ := key
  refine ⟨e, ?_⟩
  unfold applyReplacements
  rw [he]

/-- The document and the batch of the spec's own fail-fast test case:
line `\cite{foo,bar}` with a correct site for `foo` and a corrupted
expectation `qux` at the position of `bar`. -/
def c1text : List Char := ("\\cite\x7bfoo,bar\x7d").toList

def c1sites : List Site :=
  [⟨0, 6, ("foo").toList, ("baz").toList⟩,
   ⟨0, 10, ("qux").toList, ("zzz").toList⟩]

/-- Witness for the C1 theorem: the corrupted batch is well-formed, its
second site mismatches (`bar` is found where `qux` was expected), and
the engine returns an error. -/
theorem c1_replacement_fail_fast_witness :
    sepSites c1sites
    ∧ (∃ r ∈ c1sites, checkAt (splitLines c1text) r = false)
    ∧ (∃ e, applyReplacements c1text c1sites = Except.error e) :=
  ⟨by decide, by decide, c1_replacement_fail_fast c1text c1sites (by decide) (by decide)⟩

/-! ## C2: the frame property of the Replacement Engine -/

theorem mem_of_getElem?_eq_some {α : Type} {l : List α} {n : Nat} {a : α}
    (h : l[n]? = some a) : a ∈ l := by
  obtain ⟨hlt, he⟩ := List.getElem?_eq_some.mp h
  exact he ▸ l.getElem_mem hlt

theorem applyOne_frame {x : Site} {buf buf' : List (List Char)}
    (hok : applyOne buf x = Except.ok buf')
    (hlen : x.new.length = x.old.length)
    {l c : Nat} (hunc : ¬ covers x l c) :
    buf'[l]?.bind (fun ln => ln[c]?) = buf[l]?.bind (fun ln => ln[c]?) := by
  obtain ⟨ln, hget, hcheck, rfl⟩ := applyOne_ok_elim hok
  by_cases hline : x.line = l
  · subst hline
    have hlt : x.line < buf.length := by
      by_contra hge
      rw [List.getElem?_eq_none (Nat.le_of_not_lt hge)] at hget
      exact Option.noConfusion hget
    rw [List.getElem?_set, if_pos rfl, if_pos hlt, hget]
    simp only [Option.some_bind]
    rcases Nat.eq_zero_or_pos x.old.length with hz | hpos
    · have hold : x.old = [] := List.length_eq_zero.mp hz
      have hnew : x.new = [] := List.length_eq_zero.mp (by rw [hlen, hz])
      have hid : ln.take x.col ++ x.new ++ ln.drop (x.col + x.old.length) = ln := by
        rw [hold, hnew]
        simp only [List.length_nil, Nat.add_zero, List.append_nil]
        rw [List.take_append_drop]
      rw [hid]
    · have hold : x.old ≠ [] := fun h0 => by rw [h0] at hpos; simp at hpos
      have hbound : x.col + x.old.length ≤ ln.length := success_bound hcheck hold
      have hcov : c < x.col ∨ x.col + x.old.length ≤ c := by
        unfold covers at hunc
        push_neg at hunc
        rcases Nat.lt_or_ge c x.col with h1 | h1
        · exact Or.inl h1
        · exact Or.inr (hunc rfl h1)
      have hlen1 : (ln.take x.col).length = x.col := by
        rw [List.length_take]
        omega
      rcases hcov with h1 | h1
      · rw [List.append_assoc, List.getElem?_append_left (by omega),
          List.getElem?_take, if_pos (by omega)]
      · rw [List.append_assoc, List.getElem?_append_right (by omega),
          List.getElem?_append_right (by rw [hlen1]; omega), hlen1, hlen,
          List.getElem?_drop]
        congr 1
        omega
  · rw [List.getElem?_set_ne hline]

theorem applyAll_frame :
    ∀ (l : List Site) (buf buf' : List (List Char)),
      (∀ x ∈ l, x.new.length = x.old.length) →
      applyAll buf l = Except.ok buf' →
      ∀ (L c : Nat), (∀ x ∈ l, ¬ covers x L c) →
      buf'[L]?.bind (fun ln => ln[c]?) = buf[L]?.bind (fun ln => ln[c]?) := by
  intro l
  induction l with
  | nil =>
    intro buf buf' _ h L c _
    unfold applyAll at h
    injection h with h
    rw [h]
  | cons x xs ih =>
    intro buf buf' hlen h L c hunc
    unfold applyAll at h
    rcases h1 : applyOne buf x with e | b2
    · rw [h1] at h; simp at h
    · rw [h1] at h
      have hstep := applyOne_frame h1 (hlen x (List.mem_cons_self x xs))
        (hunc x (List.mem_cons_self x xs))
      have hrest := ih b2 buf' (fun y hy => hlen y (List.mem_cons_of_mem x hy)) h L c
        (fun y hy => hunc y (List.mem_cons_of_mem x hy))
      rw [hrest, hstep]

theorem splitOnChar_sep_not_mem (sep : Char) (s : List Char) :
    ∀ ln ∈ splitOnChar sep s, sep ∉ ln := by
  induction s with
  | nil =>
    intro ln h
    simp only [splitOnChar, List.mem_singleton] at h
    rw [h]
    simp
  | cons c rest ih =>
    intro ln h
    rcases hr : splitOnChar sep rest with _ | ⟨h0, t⟩
    · exact absurd hr (splitOnChar_ne_nil sep rest)
    · have hexp : splitOnChar sep (c :: rest) =
          if c == sep then [] :: h0 :: t else (c :: h0) :: t := by
        simp only [splitOnChar, hr]
      rw [hexp] at h
      by_cases hc : (c == sep) = true
      · rw [if_pos hc] at h
        rcases List.mem_cons.mp h with rfl | h'
        · simp
        · exact ih ln (hr ▸ h')
      · rw [if_neg hc] at h
        rcases List.mem_cons.mp h with rfl | h'
        · intro hin
          rcases List.mem_cons.mp hin with he | hin'
          · exact hc (by rw [he]; simp)
          · exact ih h0 (hr ▸ List.mem_cons_self h0 t) hin'
        · exact ih ln (hr ▸ List.mem_cons_of_mem h0 h')

theorem splitOnChar_singleton (sep : Char) (l : List Char) (h : sep ∉ l) :
    splitOnChar sep l = [l] := by
  induction l with
  | nil => rfl
  | cons c rest ih =>
    have hrest : sep ∉ rest := fun hm => h (List.mem_cons_of_mem c hm)
    have hc : (c == sep) = false := by
      rcases Bool.eq_false_or_eq_true (c == sep) with ht | hf
      · exact absurd (List.mem_cons.mpr (Or.inl (beq_iff_eq.mp ht).symm)) h
      · exact hf
    simp [splitOnChar, ih hrest, hc]

theorem splitOnChar_append (sep : Char) (a r : List Char) (ha : sep ∉ a) :
    splitOnChar sep (a ++ sep :: r) = a :: splitOnChar sep r := by
  induction a with
  | nil =>
    rcases hr : splitOnChar sep r with _ | ⟨h0, t⟩
    · exact absurd hr (splitOnChar_ne_nil sep r)
    · simp [splitOnChar, hr]
  | cons c a' ih =>
    have ha' : sep ∉ a' := fun hm => ha (List.mem_cons_of_mem c hm)
    have hc : (c == sep) = false := by
      rcases Bool.eq_false_or_eq_true (c == sep) with ht | hf
      · exact absurd (List.mem_cons.mpr (Or.inl (beq_iff_eq.mp ht).symm)) ha
      · exact hf
    have hih := ih ha'
    rw [List.cons_append]
    have hexp : splitOnChar sep (c :: (a' ++ sep :: r)) =
        match splitOnChar sep (a' ++ sep :: r) with
        | [] => if c == sep then [[], []] else [[c]]
        | h0 :: t => if c == sep then [] :: h0 :: t else (c :: h0) :: t := rfl
    rw [hexp, hih]
    simp [hc]

theorem splitOnChar_joinLines (L : List (List Char)) (hne : L ≠ [])
    (hnl : ∀ ln ∈ L, '\n' ∉ ln) :
    splitOnChar '\n' (joinLines L) = L := by
  induction L with
  | nil => exact absurd rfl hne
  | cons l ls ih =>
    rcases ls with _ | ⟨l2, ls'⟩
    · show splitOnChar '\n' (joinLines [l]) = [l]
      exact splitOnChar_singleton '\n' l (hnl l (List.mem_cons_self l []))
    · have hj : joinLines (l :: l2 :: ls') = l ++ '\n' :: joinLines (l2 :: ls') := rfl
      rw [hj, splitOnChar_append '\n' l _ (hnl l (List.mem_cons_self l _))]
      congr 1
      exact ih (by simp) (fun ln hln => hnl ln (List.mem_cons_of_mem l hln))

theorem applyOne_nlFree {x : Site} {buf buf' : List (List Char)}
    (hok : applyOne buf x = Except.ok buf') (hnew : '\n' ∉ x.new)
    (hbuf : ∀ ln ∈ buf, '\n' ∉ ln) : ∀ ln ∈ buf', '\n' ∉ ln := by
  obtain ⟨ln, hget, hcheck, rfl⟩ := applyOne_ok_elim hok
  intro ln' hln'
  rcases List.mem_or_eq_of_mem_set hln' with hmem | rfl
  · exact hbuf ln' hmem
  · intro hin
    have hnl : '\n' ∉ ln := hbuf ln (mem_of_getElem?_eq_some hget)
    rcases List.mem_append.mp hin with h12 | h3
    · rcases List.mem_append.mp h12 with h1 | h2
      · exact hnl (List.mem_of_mem_take h1)
      · exact hnew h2
    · exact hnl (List.mem_of_mem_drop h3)

theorem applyAll_nlFree :
    ∀ (l : List Site) (buf buf' : List (List Char)),
      (∀ x ∈ l, '\n' ∉ x.new) → (∀ ln ∈ buf, '\n' ∉ ln) →
      applyAll buf l = Except.ok buf' → ∀ ln ∈ buf', '\n' ∉ ln := by
  intro l
  induction l with
  | nil =>
    intro buf buf' _ hbuf h
    unfold applyAll at h
    injection h with h
    rw [← h]
    exact hbuf
  | cons x xs ih =>
    intro buf buf' hnew hbuf h
    unfold applyAll at h
    rcases h1 : applyOne buf x with e | b2
    · rw [h1] at h; simp at h
    · rw [h1] at h
      exact ih b2 buf' (fun y hy => hnew y (List.mem_cons_of_mem x hy))
        (applyOne_nlFree h1 (hnew x (List.mem_cons_self x xs)) hbuf) h

theorem applyAll_length :
    ∀ (l : List Site) (buf buf' : List (List Char)),
      applyAll buf l = Except.ok buf' → buf'.length = buf.length := by
  intro l
  induction l with
  | nil =>
    intro buf buf' h
    unfold applyAll at h
    injection h with h
    rw [h]
  | cons x xs ih =>
    intro buf buf' h
    unfold applyAll at h
    rcases h1 : applyOne buf x with e | b2
    · rw [h1] at h; simp at h
    · rw [h1] at h
      obtain ⟨ln, _, _, rfl⟩ := applyOne_ok_elim h1
      rw [ih _ _ h, List.length_set]

/-- C2 (amended): for every document and every replacement batch the
engine applies successfully, provided each site's new text has the same
length as the old text it replaces (and introduces no line separator),
every byte at a line/column offset not covered by any replacement site
is identical before and after application. -/
theorem c2_frame_uncovered (text : List Char) (rs : List Site) (out : List Char)
    (hlen : ∀ r ∈ rs, r.new.length = r.old.length)
    (hnl : ∀ r ∈ rs, '\n' ∉ r.new)
    (hok : applyReplacements text rs = Except.ok out)
    (l c : Nat) (hunc : ∀ r ∈ rs, ¬ covers r l c) :
    byteAt out l c = byteAt text l c := by
  unfold applyReplacements at hok
  rcases hA : applyAll (splitLines text) (List.insertionSort siteOrd rs) with e | buf2
  · rw [hA] at hok; exact absurd hok (by simp)
  · rw [hA] at hok
    have hout : joinLines buf2 = out := by injection hok
    have hperm := List.perm_insertionSort siteOrd rs
    have hsub : ∀ x ∈ List.insertionSort siteOrd rs, x ∈ rs := fun x hx => hperm.subset hx
    have hbuf := applyAll_frame (List.insertionSort siteOrd rs) (splitLines text) buf2
      (fun x hx => hlen x (hsub x hx)) hA l c (fun x hx => hunc x (hsub x hx))
    have hnl0 : ∀ ln ∈ splitLines text, '\n' ∉ ln := splitOnChar_sep_not_mem '\n' text
    have hnlb : ∀ ln ∈ buf2, '\n' ∉ ln :=
      applyAll_nlFree _ _ _ (fun x hx => hnl x (hsub x hx)) hnl0 hA
    have hlenb : buf2.length = (splitLines text).length := applyAll_length _ _ _ hA
    have hneb : buf2 ≠ [] := by
      intro h0
      apply splitOnChar_ne_nil '\n' text
      have hz : (splitLines text).length = 0 := by rw [← hlenb, h0]; rfl
      exact List.length_eq_zero.mp hz
    have hsplit : splitLines out = buf2 := by
      rw [← hout]
      exact splitOnChar_joinLines buf2 hneb hnlb
    unfold byteAt
    rw [hsplit, hbuf]

/-- C2 counterexample: with a length-changing replacement the claim as
stated is false.  Replacing `a` by `xy` at position `(0,0)` of document
`abc` succeeds; the offset `(0,1)` is covered by no site, yet the byte
there changes from `b` to `y`, because text to the right of a
length-changing site shifts. -/
theorem c2_counterexample :
    applyReplacements (("abc").toList) [⟨0, 0, ("a").toList, ("xy").toList⟩] =
      Except.ok (("xybc").toList)
    ∧ (∀ r ∈ [(⟨0, 0, ("a").toList, ("xy").toList⟩ : Site)], ¬ covers r 0 1)
    ∧ byteAt (("xybc").toList) 0 1 ≠ byteAt (("abc").toList) 0 1 := by
  refine ⟨rfl, by decide, by decide⟩

/-- Witness for the C2 theorem: replacing `c` by `X` on line 1 of
`ab\ncd` succeeds; the uncovered offset `(0,0)` holds `a` before and
after. -/
theorem c2_frame_uncovered_witness :
    (∀ r ∈ [(⟨1, 0, ("c").toList, ("X").toList⟩ : Site)], r.new.length = r.old.length)
    ∧ (∀ r ∈ [(⟨1, 0, ("c").toList, ("X").toList⟩ : Site)], '\n' ∉ r.new)
    ∧ applyReplacements (("ab\ncd").toList) [⟨1, 0, ("c").toList, ("X").toList⟩] =
        Except.ok (("ab\nXd").toList)
    ∧ (∀ r ∈ [(⟨1, 0, ("c").toList, ("X").toList⟩ : Site)], ¬ covers r 0 0)
    ∧ byteAt (("ab\nXd").toList) 0 0 = byteAt (("ab\ncd").toList) 0 0 :=
  ⟨by decide, by decide, rfl, by decide,
    c2_frame_uncovered (("ab\ncd").toList) [⟨1, 0, ("c").toList, ("X").toList⟩]
      (("ab\nXd").toList) (by decide) (by decide) rfl 0 0 (by decide)⟩
